import Mathlib

/-!
Verification of the training-metric module (`adaptis/model/metrics.py`).

The module is embedded shallowly: batches are lists of per-sample pixel
lists over `ℚ`, masks are lists of per-sample `Bool` lists, and the two
tracking metrics (`AdaptiveIoU`, `AUC`) are structures whose `update`
functions follow the Python source line by line.  The sigmoid transform
and the sklearn AUC routine are transcendental / external, so they are
passed as explicit function parameters; every claim below is settled for
all such parameter functions (or with the transform disabled).
-/

set_option autoImplicit false

/-- Arithmetic mean of a list of rationals (`mean` of the array backend);
the mean of an empty list is `0` by the division-by-zero convention. -/
def qmean (l : List ℚ) : ℚ := l.sum / l.length

/-- Numeric view of a boolean pixel, as the array backend uses 0/1 masks. -/
def bool_to_rat (b : Bool) : ℚ := if b then 1 else 0

/-- `zip` of three equally shaped arrays (extra elements are dropped, as
elementwise array operations are only applied to equally shaped inputs). -/
def zip3 {α β γ : Type} : List α → List β → List γ → List (α × β × γ)
  | a :: as, b :: bs, c :: cs => (a, b, c) :: zip3 as bs cs
  | _, _, _ => []

/-- `pred_mask = mx.nd.where(ignore_mask, zeros_like(pred_mask), pred_mask)`:
the prediction mask with ignored positions forced to `false`. -/
def masked_pred (pm ig : List Bool) : List Bool :=
  List.zipWith (fun p i => !i && p) pm ig

/-- Per-sample `union = mean(logical_or(pred_mask, gt_mask))` after the
ignore masking of `pred_mask` (the ground-truth mask is used unmasked,
exactly as in `_compute_iou`). -/
def sample_union (pm gm ig : List Bool) : ℚ :=
  qmean ((List.zipWith (fun p g => p || g) (masked_pred pm ig) gm).map bool_to_rat)

/-- Per-sample `intersection = mean(logical_and(pred_mask, gt_mask))` after
the ignore masking of `pred_mask`. -/
def sample_inter (pm gm ig : List Bool) : ℚ :=
  qmean ((List.zipWith (fun p g => p && g) (masked_pred pm ig) gm).map bool_to_rat)

/-- `result = np.full_like(intersection, -1); result[nonzero] = iou`:
scatter the values `vs` into the positions where the flag list is `true`,
filling the remaining positions with the sentinel `-1`. -/
def scatter_neg : List Bool → List ℚ → List ℚ
  | [], _ => []
  | true :: bs, v :: vs => v :: scatter_neg bs vs
  | true :: bs, [] => (-1) :: scatter_neg bs []
  | false :: bs, vs => (-1) :: scatter_neg bs vs

/-- `_compute_iou(pred_mask, gt_mask, ignore_mask, keep_ignore)`: per-sample
union / intersection means, boolean selection of the samples with positive
union, and either the compacted ratio array (`keep_ignore = false`) or the
positional array with `-1` sentinels (`keep_ignore = true`). -/
def compute_iou (pred_mask gt_mask ignore_mask : List (List Bool))
    (keep_ignore : Bool) : List ℚ :=
  let samples := zip3 pred_mask gt_mask ignore_mask
  let union := samples.map (fun s => sample_union s.1 s.2.1 s.2.2)
  let inter := samples.map (fun s => sample_inter s.1 s.2.1 s.2.2)
  let iou := ((List.zip inter union).filter (fun p => decide (0 < p.2))).map
    (fun p => p.1 / p.2)
  if keep_ignore then scatter_neg (union.map (fun u => decide (0 < u))) iou
  else iou

/-- `_compute_auc(pred, gt_mask, ignore_mask)`: zero the predictions at
ignored positions, then per sample either skip it (no positive ground
truth) or emit the value of the precision–recall AUC routine.  The sklearn
curve construction itself is external code, abstracted as `aucFn`. -/
def compute_auc (aucFn : List ℚ → List Bool → ℚ) (pred : List (List ℚ))
    (gt_mask ignore_mask : List (List Bool)) : List ℚ :=
  let pred1 := List.zipWith
    (fun prow irow => List.zipWith (fun x i => if i then 0 else x) prow irow)
    pred ignore_mask
  (List.zip pred1 gt_mask).filterMap
    (fun s => if s.2.countP id = 0 then none else some (aucFn s.1 s.2))

/-- `gt_mask = gt > 0`, computed per pixel. -/
def gt_mask_of (gt : List (List ℚ)) : List (List Bool) :=
  gt.map (fun row => row.map (fun x => decide (0 < x)))

/-- `ignore_mask = gt == ignore_label`, computed per pixel. -/
def ignore_mask_of (lbl : ℚ) (gt : List (List ℚ)) : List (List Bool) :=
  gt.map (fun row => row.map (fun x => decide (x = lbl)))

/-- `gt_mask_area = sum(gt_mask, over non-batch axes)` followed by the
`np.all(gt_mask_area == 0)` early-return test of both `update` methods. -/
def area_guard (gt : List (List ℚ)) : Bool :=
  ((gt_mask_of gt).map (fun row => row.countP id)).all (fun a => a == 0)

/-- `pred = mx.nd.sigmoid(pred)` when `from_logits` is set; the sigmoid is
transcendental and is supplied as the parameter `σ`. -/
def pred_tx (σ : ℚ → ℚ) (fl : Bool) (pred : List (List ℚ)) : List (List ℚ) :=
  if fl then pred.map (fun row => row.map σ) else pred

/-- `pred > t`, the binarization of one sample's predictions at threshold `t`. -/
def pred_mask_at (t : ℚ) (p : List ℚ) : List Bool :=
  p.map (fun x => decide (t < x))

/-- `_compute_iou(pred > t, gt_mask, ignore_mask).mean()`: the scalar overlap
score of a batch at one candidate threshold. -/
def batch_iou (pred : List (List ℚ)) (gm ig : List (List Bool)) (t : ℚ) : ℚ :=
  qmean (compute_iou (pred.map (pred_mask_at t)) gm ig false)

/-- The threshold-search loop of `AdaptiveIoU.update`: start from
`(f t, t)` and replace the pair by `(f c, c)` for the candidates
`c = t - step` then `c = t + step`, each only on a strictly larger score. -/
def thresh_search (f : ℚ → ℚ) (t step : ℚ) : ℚ × ℚ :=
  let s1 := if f (t - step) > f t then (f (t - step), t - step) else (f t, t)
  if f (t + step) > s1.1 then (f (t + step), t + step) else s1

/-- State of the `AdaptiveIoU` tracking metric (configuration fields plus
the mutable fields `_iou_thresh`, `_ema_iou`, `_epoch_iou_sum`,
`_epoch_batch_count`). -/
structure AdaptiveIoU where
  ignore_label : ℚ
  from_logits : Bool
  iou_thresh : ℚ
  thresh_step : ℚ
  thresh_beta : ℚ
  iou_beta : ℚ
  ema_iou : ℚ
  epoch_iou_sum : ℚ
  epoch_batch_count : ℕ
  deriving DecidableEq

/-- The objective evaluated by the threshold search of `AdaptiveIoU.update`:
the batch overlap score as a function of the candidate threshold, with the
masks derived from `gt` as in the source. -/
def search_objective (σ : ℚ → ℚ) (m : AdaptiveIoU)
    (pred gt : List (List ℚ)) : ℚ → ℚ :=
  batch_iou (pred_tx σ m.from_logits pred) (gt_mask_of gt)
    (ignore_mask_of m.ignore_label gt)

/-- `AdaptiveIoU.update(pred, gt)`: early return when no sample has a
positive ground-truth pixel; otherwise run the three-candidate threshold
search and fold the best pair into the EMA and epoch accumulators. -/
def AdaptiveIoU.update (σ : ℚ → ℚ) (m : AdaptiveIoU)
    (pred gt : List (List ℚ)) : AdaptiveIoU :=
  if area_guard gt then m
  else
    let best := thresh_search (search_objective σ m pred gt)
      m.iou_thresh m.thresh_step
    AdaptiveIoU.mk m.ignore_label m.from_logits
      (m.thresh_beta * m.iou_thresh + (1 - m.thresh_beta) * best.2)
      m.thresh_step m.thresh_beta m.iou_beta
      (m.iou_beta * m.ema_iou + (1 - m.iou_beta) * best.1)
      (m.epoch_iou_sum + best.1)
      (m.epoch_batch_count + 1)

/-- `AdaptiveIoU.get_epoch_value()`. -/
def AdaptiveIoU.get_epoch_value (m : AdaptiveIoU) : ℚ :=
  if 0 < m.epoch_batch_count then m.epoch_iou_sum / m.epoch_batch_count else 0

/-- `AdaptiveIoU.reset_epoch_stats()`. -/
def AdaptiveIoU.reset_epoch_stats (m : AdaptiveIoU) : AdaptiveIoU :=
  AdaptiveIoU.mk m.ignore_label m.from_logits m.iou_thresh m.thresh_step
    m.thresh_beta m.iou_beta m.ema_iou 0 0

/-- State of the `AUC` tracking metric. -/
structure AUC where
  beta : ℚ
  ignore_label : ℚ
  from_logits : Bool
  ema_auc : ℚ
  epoch_auc_sum : ℚ
  epoch_batch_count : ℕ
  deriving DecidableEq

/-- `AUC.update(pred, gt)`: same guard as the adaptive metric, then the mean
per-sample ranking quality is folded into the EMA and epoch accumulators. -/
def AUC.update (σ : ℚ → ℚ) (aucFn : List ℚ → List Bool → ℚ) (m : AUC)
    (pred gt : List (List ℚ)) : AUC :=
  if area_guard gt then m
  else
    let a := qmean (compute_auc aucFn (pred_tx σ m.from_logits pred)
      (gt_mask_of gt) (ignore_mask_of m.ignore_label gt))
    AUC.mk m.beta m.ignore_label m.from_logits
      (m.beta * m.ema_auc + (1 - m.beta) * a)
      (m.epoch_auc_sum + a)
      (m.epoch_batch_count + 1)

/-- `AUC.get_epoch_value()`. -/
def AUC.get_epoch_value (m : AUC) : ℚ :=
  if 0 < m.epoch_batch_count then m.epoch_auc_sum / m.epoch_batch_count else 0

/-! ### Generic helper lemmas -/

theorem bool_to_rat_nonneg (b : Bool) : 0 ≤ bool_to_rat b := by
  cases b <;> simp [bool_to_rat]

theorem bool_to_rat_le_one (b : Bool) : bool_to_rat b ≤ 1 := by
  cases b <;> simp [bool_to_rat]

theorem bool_to_rat_mono {a b : Bool} (h : a = true → b = true) :
    bool_to_rat a ≤ bool_to_rat b := by
  cases a <;> cases b <;> simp_all [bool_to_rat]

theorem qmean_nonneg {l : List ℚ} (h : ∀ x ∈ l, 0 ≤ x) : 0 ≤ qmean l := by
  unfold qmean
  exact div_nonneg (List.sum_nonneg h) (by positivity)

theorem qmean_eq_zero {l : List ℚ} (h : ∀ x ∈ l, x = 0) : qmean l = 0 := by
  unfold qmean
  rw [List.sum_eq_zero h, zero_div]

theorem qmean_le_qmean {l₁ l₂ : List ℚ} (hlen : l₁.length = l₂.length)
    (hsum : l₁.sum ≤ l₂.sum) : qmean l₁ ≤ qmean l₂ := by
  unfold qmean
  rw [hlen]
  exact div_le_div_of_nonneg_right hsum (by positivity)

theorem mem_zipWith_ex {α β γ : Type} {f : α → β → γ} {c : γ} :
    ∀ {l₁ : List α} {l₂ : List β}, c ∈ List.zipWith f l₁ l₂ →
      ∃ a ∈ l₁, ∃ b ∈ l₂, c = f a b := by
  intro l₁
  induction l₁ with
  | nil => intro l₂ h; simp at h
  | cons a as ih =>
    intro l₂ h
    cases l₂ with
    | nil => simp at h
    | cons b bs =>
      rcases List.mem_cons.1 h with h | h
      · exact ⟨a, List.mem_cons_self a as, b, List.mem_cons_self b bs, h⟩
      · rcases ih h with ⟨x, hx, y, hy, hxy⟩
        exact ⟨x, List.mem_cons_of_mem _ hx, y, List.mem_cons_of_mem _ hy, hxy⟩

/-! ### Threshold-search helper lemmas -/

theorem thresh_search_eq (f : ℚ → ℚ) (t st : ℚ) :
    thresh_search f t st =
      if f (t - st) > f t then
        (if f (t + st) > f (t - st) then (f (t + st), t + st)
          else (f (t - st), t - st))
      else
        (if f (t + st) > f t then (f (t + st), t + st) else (f t, t)) := by
  unfold thresh_search
  by_cases h1 : f (t - st) > f t <;> simp [h1]

theorem thresh_search_fst_max (f : ℚ → ℚ) (t st : ℚ) :
    (thresh_search f t st).1 = max (f t) (max (f (t - st)) (f (t + st))) := by
  rw [thresh_search_eq]
  split_ifs with h1 h2 h3 <;>
    simp only [max_def] <;> split_ifs <;> simp_all <;> linarith

theorem thresh_search_snd_cases (f : ℚ → ℚ) (t st : ℚ) :
    ((thresh_search f t st).2 = t ∨ (thresh_search f t st).2 = t - st ∨
      (thresh_search f t st).2 = t + st) ∧
    f (thresh_search f t st).2 = (thresh_search f t st).1 := by
  rw [thresh_search_eq]
  split_ifs <;> simp

theorem thresh_search_tie (f : ℚ → ℚ) (t st : ℚ)
    (h1 : f (t - st) ≤ f t) (h2 : f (t + st) ≤ f t) :
    (thresh_search f t st).2 = t := by
  rw [thresh_search_eq]
  split_ifs with ha hb hc <;> simp_all <;> linarith

theorem thresh_search_snd_of_up_le (f : ℚ → ℚ) (t st : ℚ)
    (h : f (t + st) ≤ f t) :
    (thresh_search f t st).2 = t ∨ (thresh_search f t st).2 = t - st := by
  rw [thresh_search_eq]
  split_ifs with ha hb hc <;> simp_all <;> linarith

/-! ### Guard helper lemmas -/

theorem area_guard_of_nonpos {gt : List (List ℚ)}
    (h : ∀ row ∈ gt, ∀ x ∈ row, x ≤ 0) : area_guard gt = true := by
  unfold area_guard gt_mask_of
  rw [List.all_eq_true]
  intro a ha
  simp only [List.map_map, List.mem_map, Function.comp] at ha
  obtain ⟨row, hrow, rfl⟩ := ha
  have : (row.map (fun x => decide (0 < x))).countP id = 0 := by
    rw [List.countP_eq_zero]
    intro b hb
    obtain ⟨x, hx, rfl⟩ := List.mem_map.1 hb
    simpa using not_lt.2 (h row hrow x hx)
  simpa using this

theorem adaptive_update_of_guard (σ : ℚ → ℚ) (m : AdaptiveIoU)
    (pred gt : List (List ℚ)) (h : area_guard gt = true) :
    AdaptiveIoU.update σ m pred gt = m := by
  simp [AdaptiveIoU.update, h]

theorem adaptive_update_iou_thresh (σ : ℚ → ℚ) (m : AdaptiveIoU)
    (pred gt : List (List ℚ)) (h : area_guard gt = false) :
    (AdaptiveIoU.update σ m pred gt).iou_thresh =
      m.thresh_beta * m.iou_thresh + (1 - m.thresh_beta) *
        (thresh_search (search_objective σ m pred gt) m.iou_thresh
          m.thresh_step).2 := by
  simp [AdaptiveIoU.update, h]

/-! ### Concrete states used by the witnesses -/

/-- An `AdaptiveIoU` metric with the default configuration of the source
(`init_thresh=0.4`, `thresh_step=0.025`, `thresh_beta=0.99`, `iou_beta=0.9`,
`ignore_label=-1`) and `from_logits` disabled. -/
def m0A : AdaptiveIoU :=
  AdaptiveIoU.mk (-1) false (2/5) (1/40) (99/100) (9/10) 0 0 0

/-- An `AUC` metric with the default configuration of the source
(`beta=0.9`, `ignore_label=-1`) and `from_logits` disabled. -/
def m0U : AUC := AUC.mk (9/10) (-1) false 0 0 0

/-! ### Claims C1, C2, C3 -/

/-- Claim C1: whenever `update` reaches the threshold search, the search
evaluates the overlap objective (mean of `compute_iou` with `pred`
binarized as `pred > candidate`) at exactly the three candidates
`threshold`, `threshold - step`, `threshold + step` (both perturbations of
the entry threshold), adopts the best pair into the state, the best score
is the maximum of the three candidate scores, the best threshold is one of
the three candidates and attains that score, and a tie keeps the
unperturbed current threshold. -/
theorem adaptive_update_search_spec (σ : ℚ → ℚ) (m : AdaptiveIoU)
    (pred gt : List (List ℚ)) (h : area_guard gt = false) :
    (AdaptiveIoU.update σ m pred gt).iou_thresh =
      m.thresh_beta * m.iou_thresh + (1 - m.thresh_beta) *
        (thresh_search (search_objective σ m pred gt) m.iou_thresh
          m.thresh_step).2 ∧
    (AdaptiveIoU.update σ m pred gt).ema_iou =
      m.iou_beta * m.ema_iou + (1 - m.iou_beta) *
        (thresh_search (search_objective σ m pred gt) m.iou_thresh
          m.thresh_step).1 ∧
    (thresh_search (search_objective σ m pred gt) m.iou_thresh
        m.thresh_step).1 =
      max (search_objective σ m pred gt m.iou_thresh)
        (max (search_objective σ m pred gt (m.iou_thresh - m.thresh_step))
          (search_objective σ m pred gt (m.iou_thresh + m.thresh_step))) ∧
    ((thresh_search (search_objective σ m pred gt) m.iou_thresh
        m.thresh_step).2 = m.iou_thresh ∨
      (thresh_search (search_objective σ m pred gt) m.iou_thresh
        m.thresh_step).2 = m.iou_thresh - m.thresh_step ∨
      (thresh_search (search_objective σ m pred gt) m.iou_thresh
        m.thresh_step).2 = m.iou_thresh + m.thresh_step) ∧
    search_objective σ m pred gt
        (thresh_search (search_objective σ m pred gt) m.iou_thresh
          m.thresh_step).2 =
      (thresh_search (search_objective σ m pred gt) m.iou_thresh
        m.thresh_step).1 ∧
    (search_objective σ m pred gt (m.iou_thresh - m.thresh_step) ≤
        search_objective σ m pred gt m.iou_thresh →
      search_objective σ m pred gt (m.iou_thresh + m.thresh_step) ≤
        search_objective σ m pred gt m.iou_thresh →
      (thresh_search (search_objective σ m pred gt) m.iou_thresh
        m.thresh_step).2 = m.iou_thresh) := by
  refine ⟨?_, ?_, thresh_search_fst_max _ _ _,
    (thresh_search_snd_cases _ _ _).1, (thresh_search_snd_cases _ _ _).2,
    thresh_search_tie _ _ _⟩ <;>
  simp [AdaptiveIoU.update, h]

/-- Witness for C1 at a concrete batch: the tie-breaking conjunct applied
to a constant objective keeps the entry threshold. -/
theorem adaptive_update_search_spec_witness :
    (thresh_search (search_objective (fun x => x) m0A [[1]] [[1]])
      m0A.iou_thresh m0A.thresh_step).2 = m0A.iou_thresh := by
  have h := adaptive_update_search_spec (fun x => x) m0A [[1]] [[1]] (by decide)
  exact h.2.2.2.2.2 (by norm_num [search_objective, m0A, batch_iou, pred_tx,
      gt_mask_of, ignore_mask_of, compute_iou, zip3, sample_union,
      sample_inter, masked_pred, qmean, bool_to_rat, pred_mask_at])
    (by norm_num [search_objective, m0A, batch_iou, pred_tx, gt_mask_of,
      ignore_mask_of, compute_iou, zip3, sample_union, sample_inter,
      masked_pred, qmean, bool_to_rat, pred_mask_at])

/-- Claim C2: one `update` call moves the threshold by at most
`(1 - thresh_beta) * thresh_step` (for the spec's valid configurations,
`thresh_beta ≤ 1` and `0 ≤ thresh_step`). -/
theorem adaptive_update_thresh_move_bound (σ : ℚ → ℚ) (m : AdaptiveIoU)
    (pred gt : List (List ℚ)) (hβ : m.thresh_beta ≤ 1)
    (hst : 0 ≤ m.thresh_step) :
    |(AdaptiveIoU.update σ m pred gt).iou_thresh - m.iou_thresh| ≤
      (1 - m.thresh_beta) * m.thresh_step := by
  by_cases hg : area_guard gt = true
  · rw [adaptive_update_of_guard σ m pred gt hg]
    simp only [sub_self, abs_zero]
    exact mul_nonneg (by linarith) hst
  · have hb := (thresh_search_snd_cases (search_objective σ m pred gt)
      m.iou_thresh m.thresh_step).1
    rw [adaptive_update_iou_thresh σ m pred gt (by simpa using hg)]
    have heq : m.thresh_beta * m.iou_thresh + (1 - m.thresh_beta) *
        (thresh_search (search_objective σ m pred gt) m.iou_thresh
          m.thresh_step).2 - m.iou_thresh =
        (1 - m.thresh_beta) *
        ((thresh_search (search_objective σ m pred gt) m.iou_thresh
          m.thresh_step).2 - m.iou_thresh) := by ring
    rw [heq, abs_mul, abs_of_nonneg (by linarith : (0:ℚ) ≤ 1 - m.thresh_beta)]
    apply mul_le_mul_of_nonneg_left _ (by linarith : (0:ℚ) ≤ 1 - m.thresh_beta)
    rcases hb with h | h | h <;> rw [h, abs_le] <;> constructor <;> linarith

/-- Witness for C2 at a concrete state and batch. -/
theorem adaptive_update_thresh_move_bound_witness :
    |(AdaptiveIoU.update (fun x => x) m0A [[1]] [[1]]).iou_thresh -
      m0A.iou_thresh| ≤ (1 - m0A.thresh_beta) * m0A.thresh_step :=
  adaptive_update_thresh_move_bound (fun x => x) m0A [[1]] [[1]]
    (by norm_num [m0A]) (by norm_num [m0A])

/-- Claim C3: a batch in which no sample has a positive ground-truth pixel
makes both `update` methods return immediately with the metric state
(threshold, EMAs, epoch sum, epoch count) exactly unchanged. -/
theorem update_noop_of_no_positive (σ : ℚ → ℚ)
    (aucFn : List ℚ → List Bool → ℚ) (m₁ : AdaptiveIoU) (m₂ : AUC)
    (pred gt : List (List ℚ)) (h : ∀ row ∈ gt, ∀ x ∈ row, x ≤ 0) :
    AdaptiveIoU.update σ m₁ pred gt = m₁ ∧ AUC.update σ aucFn m₂ pred gt = m₂ := by
  have hg : area_guard gt = true := area_guard_of_nonpos h
  constructor <;> simp [AdaptiveIoU.update, AUC.update, hg]

/-- Witness for C3: a batch whose ground truth is only zeros and ignore
labels leaves both default metrics unchanged. -/
theorem update_noop_of_no_positive_witness :
    AdaptiveIoU.update (fun x => x) m0A [[1, 1]] [[0, -1]] = m0A ∧
    AUC.update (fun x => x) (fun _ _ => 0) m0U [[1, 1]] [[0, -1]] = m0U :=
  update_noop_of_no_positive (fun x => x) (fun _ _ => 0) m0A m0U [[1, 1]]
    [[0, -1]] (by decide)

/-! ### Structure of `compute_iou` -/

theorem compute_iou_false_eq (pm gm ig : List (List Bool)) :
    compute_iou pm gm ig false =
      ((zip3 pm gm ig).filter
        (fun s => decide (0 < sample_union s.1 s.2.1 s.2.2))).map
        (fun s => sample_inter s.1 s.2.1 s.2.2 / sample_union s.1 s.2.1 s.2.2) := by
  simp only [compute_iou, Bool.false_eq_true, if_false, List.zip_map',
    List.filter_map, List.map_map]
  rfl

theorem scatter_neg_eq {α : Type} (p : α → Bool) (v : α → ℚ) :
    ∀ l : List α,
      scatter_neg (l.map p) ((l.filter p).map v) =
        l.map (fun a => if p a = true then v a else -1) := by
  intro l
  induction l with
  | nil => rfl
  | cons a t ih =>
    cases hpa : p a <;>
      simp [scatter_neg, hpa, List.filter_cons, ih]

theorem compute_iou_true_eq (pm gm ig : List (List Bool)) :
    compute_iou pm gm ig true =
      (zip3 pm gm ig).map
        (fun s => if 0 < sample_union s.1 s.2.1 s.2.2 then
          sample_inter s.1 s.2.1 s.2.2 / sample_union s.1 s.2.1 s.2.2
          else -1) := by
  have h := scatter_neg_eq (fun s : List Bool × List Bool × List Bool =>
      decide (0 < sample_union s.1 s.2.1 s.2.2))
    (fun s => sample_inter s.1 s.2.1 s.2.2 / sample_union s.1 s.2.1 s.2.2)
    (zip3 pm gm ig)
  simp only [decide_eq_true_eq] at h
  rw [← h]
  simp only [compute_iou, if_true, List.zip_map', List.filter_map,
    List.map_map]
  rfl

theorem compute_iou_mem {pm gm ig : List (List Bool)} {v : ℚ}
    (h : v ∈ compute_iou pm gm ig false) :
    ∃ s ∈ zip3 pm gm ig, 0 < sample_union s.1 s.2.1 s.2.2 ∧
      v = sample_inter s.1 s.2.1 s.2.2 / sample_union s.1 s.2.1 s.2.2 := by
  rw [compute_iou_false_eq] at h
  obtain ⟨s, hs, rfl⟩ := List.mem_map.1 h
  obtain ⟨hmem, hpos⟩ := List.mem_filter.1 hs
  exact ⟨s, hmem, by simpa using hpos, rfl⟩

/-! ### Bounds on the per-sample quantities -/

theorem sample_union_nonneg (pm gm ig : List Bool) :
    0 ≤ sample_union pm gm ig := by
  apply qmean_nonneg
  intro x hx
  obtain ⟨b, _, rfl⟩ := List.mem_map.1 hx
  exact bool_to_rat_nonneg b

theorem sample_inter_nonneg (pm gm ig : List Bool) :
    0 ≤ sample_inter pm gm ig := by
  apply qmean_nonneg
  intro x hx
  obtain ⟨b, _, rfl⟩ := List.mem_map.1 hx
  exact bool_to_rat_nonneg b

theorem sum_map_zipWith_le {f g : Bool → Bool → Bool}
    (h : ∀ a b, bool_to_rat (f a b) ≤ bool_to_rat (g a b)) :
    ∀ l₁ l₂ : List Bool,
      ((List.zipWith f l₁ l₂).map bool_to_rat).sum ≤
        ((List.zipWith g l₁ l₂).map bool_to_rat).sum := by
  intro l₁
  induction l₁ with
  | nil => intro l₂; simp
  | cons a t ih =>
    intro l₂
    cases l₂ with
    | nil => simp
    | cons b s =>
      simp only [List.zipWith_cons_cons, List.map_cons, List.sum_cons]
      exact add_le_add (h a b) (ih s)

theorem sample_inter_le_union (pm gm ig : List Bool) :
    sample_inter pm gm ig ≤ sample_union pm gm ig := by
  apply qmean_le_qmean
  · simp [List.length_map, List.length_zipWith]
  · apply sum_map_zipWith_le
    intro a b
    apply bool_to_rat_mono
    cases a <;> cases b <;> simp

theorem compute_iou_bounds {pm gm ig : List (List Bool)} {v : ℚ}
    (h : v ∈ compute_iou pm gm ig false) : 0 ≤ v ∧ v ≤ 1 := by
  obtain ⟨s, _, hpos, rfl⟩ := compute_iou_mem h
  constructor
  · exact div_nonneg (sample_inter_nonneg _ _ _) (le_of_lt hpos)
  · rw [div_le_one hpos]
    exact sample_inter_le_union _ _ _

/-! ### Claim C6 -/

/-- Claim C6: every value produced by the overlap computation for a
retained sample lies in the closed interval `[0, 1]`. -/
theorem compute_iou_values_in_unit_interval (pm gm ig : List (List Bool))
    (v : ℚ) (h : v ∈ compute_iou pm gm ig false) : 0 ≤ v ∧ v ≤ 1 :=
  compute_iou_bounds h

/-- Witness for C6 on a concrete one-sample batch whose overlap value is 1. -/
theorem compute_iou_values_in_unit_interval_witness :
    0 ≤ (1 : ℚ) ∧ (1 : ℚ) ≤ 1 :=
  compute_iou_values_in_unit_interval [[true]] [[true]] [[false]] 1
    (by norm_num [compute_iou, zip3, sample_union, sample_inter, masked_pred,
      qmean, bool_to_rat])

/-! ### Claim C7 -/

/-- Claim C7: a sample contributes `intersection/union` exactly when its
union is positive; with `keep_ignore` off the zero-union samples are
dropped (the array is the filtered sequence of ratios), and with
`keep_ignore` on every sample is retained positionally with the sentinel
`-1` in place of the dropped ones, so a division never has a zero
denominator. -/
theorem compute_iou_drop_keep_spec (pm gm ig : List (List Bool)) :
    compute_iou pm gm ig false =
      ((zip3 pm gm ig).filter
        (fun s => decide (0 < sample_union s.1 s.2.1 s.2.2))).map
        (fun s => sample_inter s.1 s.2.1 s.2.2 / sample_union s.1 s.2.1 s.2.2) ∧
    compute_iou pm gm ig true =
      (zip3 pm gm ig).map
        (fun s => if 0 < sample_union s.1 s.2.1 s.2.2 then
          sample_inter s.1 s.2.1 s.2.2 / sample_union s.1 s.2.1 s.2.2
          else -1) ∧
    (compute_iou pm gm ig true).length = (zip3 pm gm ig).length :=
  ⟨compute_iou_false_eq pm gm ig, compute_iou_true_eq pm gm ig, by
    rw [compute_iou_true_eq]; exact List.length_map _ _⟩

/-! ### Claim C4 -/

/-- Union as the specification words it ("excluding ignored pixels from
both sets"): ignored positions are removed from the prediction set AND
from the ground-truth set before the elementwise or. -/
def sample_union_spec (pm gm ig : List Bool) : ℚ :=
  qmean ((List.zipWith (fun p g => p || g) (masked_pred pm ig)
    (masked_pred gm ig)).map bool_to_rat)

/-- Intersection as the specification words it: ignored positions removed
from both sets before the elementwise and. -/
def sample_inter_spec (pm gm ig : List Bool) : ℚ :=
  qmean ((List.zipWith (fun p g => p && g) (masked_pred pm ig)
    (masked_pred gm ig)).map bool_to_rat)

/-- Counterexample to C4: at a position that is both ignored and
ground-truth positive, the source's union still counts the position
(only `pred_mask` is masked), so the sample is even retained with overlap
value 0 instead of being free of that position's contribution. -/
theorem ignore_mask_union_cex :
    sample_union [false] [true] [true] = 1 ∧
    sample_union_spec [false] [true] [true] = 0 ∧
    sample_union [false] [true] [true] ≠ sample_union_spec [false] [true] [true] ∧
    compute_iou [[false]] [[true]] [[true]] false = [0] := by
  norm_num [sample_union, sample_union_spec, compute_iou, zip3, sample_inter,
    masked_pred, qmean, bool_to_rat]

theorem inter_lists_eq :
    ∀ (pm gm ig : List Bool),
      List.zipWith (fun p g => p && g) (masked_pred pm ig) gm =
        List.zipWith (fun p g => p && g) (masked_pred pm ig)
          (masked_pred gm ig) := by
  intro pm
  induction pm with
  | nil => intro gm ig; simp [masked_pred]
  | cons p pt ih =>
    intro gm ig
    cases ig with
    | nil => simp [masked_pred]
    | cons i it =>
      cases gm with
      | nil => simp [masked_pred]
      | cons g gt =>
        simp only [masked_pred, List.zipWith_cons_cons]
        refine congrArg₂ _ ?_ (ih gt it)
        cases i <;> cases g <;> cases p <;> rfl

theorem union_lists_eq_of_disjoint :
    ∀ (pm gm ig : List Bool),
      (∀ pr ∈ List.zip ig gm, ¬(pr.1 = true ∧ pr.2 = true)) →
      List.zipWith (fun p g => p || g) (masked_pred pm ig) gm =
        List.zipWith (fun p g => p || g) (masked_pred pm ig)
          (masked_pred gm ig) := by
  intro pm
  induction pm with
  | nil => intro gm ig _; simp [masked_pred]
  | cons p pt ih =>
    intro gm ig hd
    cases ig with
    | nil => simp [masked_pred]
    | cons i it =>
      cases gm with
      | nil => simp [masked_pred]
      | cons g gt =>
        simp only [masked_pred, List.zipWith_cons_cons]
        refine congrArg₂ _ ?_ (ih gt it ?_)
        · have hig : ¬(i = true ∧ g = true) :=
            hd (i, g) (by simp [List.zip_cons_cons])
          cases i
          · rfl
          · cases g
            · rfl
            · exact absurd ⟨rfl, rfl⟩ hig
        · intro pr hpr
          exact hd pr (by simp [List.zip_cons_cons]; right; simpa using hpr)

/-- Amended C4: ignore takes precedence only on the prediction side.  The
intersection never receives a contribution from an ignored position (it
equals the spec's both-sides-masked intersection unconditionally), and the
union agrees with the spec's both-sides-masked union exactly under the
documented input invariant that no position is simultaneously positive and
ignored; without that invariant an ignored ground-truth-positive position
still contributes to the union (see the counterexample). -/
theorem ignore_precedence_inter_only (pm gm ig : List Bool) :
    sample_inter pm gm ig = sample_inter_spec pm gm ig ∧
    ((∀ pr ∈ List.zip ig gm, ¬(pr.1 = true ∧ pr.2 = true)) →
      sample_union pm gm ig = sample_union_spec pm gm ig) := by
  constructor
  · unfold sample_inter sample_inter_spec
    rw [inter_lists_eq]
  · intro hd
    unfold sample_union sample_union_spec
    rw [union_lists_eq_of_disjoint pm gm ig hd]

/-- Witness for the amended C4 on a concrete disjoint configuration. -/
theorem ignore_precedence_inter_only_witness :
    sample_inter [true, false] [true, false] [false, true] =
      sample_inter_spec [true, false] [true, false] [false, true] ∧
    sample_union [true, false] [true, false] [false, true] =
      sample_union_spec [true, false] [true, false] [false, true] := by
  have h := ignore_precedence_inter_only [true, false] [true, false] [false, true]
  refine ⟨h.1, h.2 ?_⟩
  intro pr hpr
  simp only [List.zip_cons_cons, List.mem_cons] at hpr
  rcases hpr with rfl | hpr
  · simp
  · rcases hpr with rfl | hpr
    · simp
    · simp at hpr

/-! ### Claim C5 -/

/-- Counterexample to C5: with `pred = [0.9, 0.5]`, a positive first pixel
and a negative second pixel, raising the threshold from 0.3 to 0.7 removes
the false-positive pixel and the overlap value RISES from 1/2 to 1, so
`compute_iou` over `pred > t` is not monotonically non-increasing in `t`. -/
theorem iou_thresh_monotone_cex :
    (3:ℚ)/10 < 7/10 ∧
    compute_iou ([[9/10, 1/2]].map (pred_mask_at (3/10)))
      [[true, false]] [[false, false]] false = [1/2] ∧
    compute_iou ([[9/10, 1/2]].map (pred_mask_at (7/10)))
      [[true, false]] [[false, false]] false = [1] ∧
    ¬((1:ℚ) ≤ 1/2) := by
  norm_num [compute_iou, zip3, sample_union, sample_inter, masked_pred,
    qmean, bool_to_rat, pred_mask_at]

theorem sum_pred_mask_mono (w : Bool → Bool → Bool)
    (hw : ∀ a b g, (a = true → b = true) →
      bool_to_rat (w a g) ≤ bool_to_rat (w b g))
    {t1 t2 : ℚ} (h : t1 ≤ t2) :
    ∀ (p : List ℚ) (ig gm : List Bool),
      ((List.zipWith w (masked_pred (pred_mask_at t2 p) ig) gm).map
        bool_to_rat).sum ≤
      ((List.zipWith w (masked_pred (pred_mask_at t1 p) ig) gm).map
        bool_to_rat).sum := by
  intro p
  induction p with
  | nil => intro ig gm; simp [pred_mask_at, masked_pred]
  | cons x pt ih =>
    intro ig gm
    cases ig with
    | nil => simp [pred_mask_at, masked_pred]
    | cons i it =>
      cases gm with
      | nil => simp [pred_mask_at, masked_pred]
      | cons g gt =>
        simp only [pred_mask_at, masked_pred, List.map_cons,
          List.zipWith_cons_cons, List.sum_cons]
        refine add_le_add (hw _ _ g ?_) (ih it gt)
        intro hmem
        simp only [Bool.and_eq_true, Bool.not_eq_true', decide_eq_true_eq]
          at hmem ⊢
        exact ⟨hmem.1, lt_of_le_of_lt h hmem.2⟩

theorem pred_mask_parts_length (w : Bool → Bool → Bool) (t1 t2 : ℚ)
    (p : List ℚ) (ig gm : List Bool) :
    ((List.zipWith w (masked_pred (pred_mask_at t2 p) ig) gm).map
      bool_to_rat).length =
    ((List.zipWith w (masked_pred (pred_mask_at t1 p) ig) gm).map
      bool_to_rat).length := by
  simp [List.length_zipWith, masked_pred, pred_mask_at]

/-- Amended C5: the binarized prediction mask shrinks pointwise as the
threshold rises, so the per-sample intersection and union are each
monotonically non-increasing in the threshold; the overlap ratio itself is
NOT monotone (see the counterexample), because the union can shrink faster
than the intersection. -/
theorem pred_mask_monotone_parts (t1 t2 : ℚ) (h : t1 ≤ t2) (p : List ℚ)
    (gm ig : List Bool) :
    sample_inter (pred_mask_at t2 p) gm ig ≤
      sample_inter (pred_mask_at t1 p) gm ig ∧
    sample_union (pred_mask_at t2 p) gm ig ≤
      sample_union (pred_mask_at t1 p) gm ig := by
  constructor
  · exact qmean_le_qmean (pred_mask_parts_length _ t1 t2 p ig gm)
      (sum_pred_mask_mono _ (fun a b g hab => bool_to_rat_mono (by
        cases a <;> cases b <;> cases g <;> simp_all)) h p ig gm)
  · exact qmean_le_qmean (pred_mask_parts_length _ t1 t2 p ig gm)
      (sum_pred_mask_mono _ (fun a b g hab => bool_to_rat_mono (by
        cases a <;> cases b <;> cases g <;> simp_all)) h p ig gm)

/-- Witness for the amended C5 on the counterexample's data. -/
theorem pred_mask_monotone_parts_witness :
    sample_inter (pred_mask_at ((7:ℚ)/10) [9/10, 1/2]) [true, false]
        [false, false] ≤
      sample_inter (pred_mask_at ((3:ℚ)/10) [9/10, 1/2]) [true, false]
        [false, false] ∧
    sample_union (pred_mask_at ((7:ℚ)/10) [9/10, 1/2]) [true, false]
        [false, false] ≤
      sample_union (pred_mask_at ((3:ℚ)/10) [9/10, 1/2]) [true, false]
        [false, false] :=
  pred_mask_monotone_parts (3/10) (7/10) (by norm_num) [9/10, 1/2]
    [true, false] [false, false]

/-! ### Claim C8 -/

theorem area_guard_iff (gt : List (List ℚ)) :
    area_guard gt = true ↔
      ∀ row ∈ gt, row.countP (fun x => decide (0 < x)) = 0 := by
  simp only [area_guard, gt_mask_of, List.map_map, List.all_eq_true,
    List.mem_map, Function.comp, beq_iff_eq]
  constructor
  · intro h row hrow
    have := h _ ⟨row, hrow, rfl⟩
    simpa [List.countP_map] using this
  · rintro h a ⟨row, hrow, rfl⟩
    simpa [List.countP_map] using h row hrow

theorem auc_update_of_guard (σ : ℚ → ℚ) (aucFn : List ℚ → List Bool → ℚ)
    (m : AUC) (pred gt : List (List ℚ)) (h : area_guard gt = true) :
    AUC.update σ aucFn m pred gt = m := by
  simp [AUC.update, h]

/-- Claim C8: when every sample of the batch is skipped by the
ranking-quality computation (no positive ground-truth positions anywhere),
the `AUC.update` call is a no-op — the early guard fires before the empty
mean could be formed — and indeed `compute_auc` on the batch's ground-truth
mask retains no sample for ANY prediction and ignore inputs. -/
theorem auc_update_noop_all_skipped (σ : ℚ → ℚ)
    (aucFn : List ℚ → List Bool → ℚ) (m : AUC) (pred gt : List (List ℚ))
    (h : ∀ row ∈ gt, row.countP (fun x => decide (0 < x)) = 0) :
    AUC.update σ aucFn m pred gt = m ∧
    ∀ (pred2 : List (List ℚ)) (ig : List (List Bool)),
      compute_auc aucFn pred2 (gt_mask_of gt) ig = [] := by
  constructor
  · exact auc_update_of_guard σ aucFn m pred gt ((area_guard_iff gt).2 h)
  · intro pred2 ig
    unfold compute_auc
    rw [List.filterMap_eq_nil_iff]
    intro s hs
    have hsnd : s.2 ∈ gt_mask_of gt := by
      rcases s with ⟨s1, s2⟩
      exact (List.of_mem_zip hs).2
    obtain ⟨row, hrow, hmap⟩ := List.mem_map.1 hsnd
    have : s.2.countP id = 0 := by
      rw [← hmap]
      simpa [List.countP_map] using h row hrow
    simp [this]

/-- Witness for C8 on a concrete all-skipped batch. -/
theorem auc_update_noop_all_skipped_witness :
    AUC.update (fun x => x) (fun _ _ => 0) m0U [[1]] [[0]] = m0U ∧
    compute_auc (fun _ _ => 0) [[1]] (gt_mask_of [[0]]) [[false]] = [] := by
  have h := auc_update_noop_all_skipped (fun x => x) (fun _ _ => 0) m0U
    [[1]] [[0]] (by
      intro row hrow
      simp only [List.mem_singleton] at hrow
      subst hrow
      simp)
  exact ⟨h.1, h.2 [[1]] [[false]]⟩

/-! ### Claim C10 -/

theorem area_guard_cons (g : List ℚ) (gs : List (List ℚ)) :
    area_guard (g :: gs) =
      ((g.countP (fun x => decide (0 < x)) == 0) && area_guard gs) := by
  simp [area_guard, gt_mask_of, List.countP_map, Function.comp]

theorem compute_iou_false_cons (p g i : List Bool)
    (ps gs is : List (List Bool)) :
    compute_iou (p :: ps) (g :: gs) (i :: is) false =
      (if 0 < sample_union p g i then
        [sample_inter p g i / sample_union p g i] else []) ++
      compute_iou ps gs is false := by
  by_cases h : 0 < sample_union p g i <;>
    simp [compute_iou_false_eq, zip3, List.filter_cons, h]

theorem sum_or_pos :
    ∀ (g mrow : List Bool), mrow.length = g.length → g.countP id ≠ 0 →
      0 < ((List.zipWith (fun p q => p || q) mrow g).map bool_to_rat).sum := by
  intro g
  induction g with
  | nil => intro mrow _ hc; simp at hc
  | cons b bt ih =>
    intro mrow hlen hc
    cases mrow with
    | nil => simp at hlen
    | cons a at2 =>
      simp only [List.zipWith_cons_cons, List.map_cons, List.sum_cons]
      have hrest : 0 ≤ ((List.zipWith (fun p q => p || q) at2 bt).map
          bool_to_rat).sum := by
        apply List.sum_nonneg
        intro x hx
        obtain ⟨c, _, rfl⟩ := List.mem_map.1 hx
        exact bool_to_rat_nonneg c
      cases b with
      | true =>
        have : bool_to_rat (a || true) = 1 := by cases a <;> rfl
        rw [this]
        linarith
      | false =>
        have hc2 : bt.countP id ≠ 0 := by
          simpa [List.countP_cons] using hc
        have := ih at2 (by simpa using hlen) hc2
        have ha : 0 ≤ bool_to_rat (a || false) := bool_to_rat_nonneg _
        linarith

theorem sample_union_pos {pm gm ig : List Bool}
    (hlen1 : pm.length = gm.length) (hlen2 : ig.length = gm.length)
    (h : gm.countP id ≠ 0) : 0 < sample_union pm gm ig := by
  unfold sample_union
  have hmlen : (masked_pred pm ig).length = gm.length := by
    simp [masked_pred, List.length_zipWith, hlen1, hlen2]
  have hsum := sum_or_pos gm (masked_pred pm ig) hmlen h
  have hglen : 0 < gm.length := by
    rcases gm with _ | ⟨b, bt⟩
    · simp at h
    · simp
  have hllen : ((List.zipWith (fun p q => p || q) (masked_pred pm ig)
      gm).map bool_to_rat).length = gm.length := by
    simp [List.length_zipWith, hmlen]
  unfold qmean
  rw [hllen]
  exact div_pos hsum (by exact_mod_cast hglen)

theorem pred_tx_length (σ : ℚ → ℚ) (fl : Bool) (pred : List (List ℚ)) :
    (pred_tx σ fl pred).length = pred.length := by
  cases fl <;> simp [pred_tx]

theorem pred_tx_rowlens (σ : ℚ → ℚ) (fl : Bool) :
    ∀ (pred gt : List (List ℚ)),
      (∀ pr ∈ List.zip pred gt, pr.1.length = pr.2.length) →
      ∀ pr ∈ List.zip (pred_tx σ fl pred) gt, pr.1.length = pr.2.length := by
  cases fl
  · intro pred gt h
    simpa [pred_tx] using h
  · intro pred gt h
    simp only [pred_tx, if_true]
    induction pred generalizing gt with
    | nil => intro pr hpr; simp at hpr
    | cons p pt ih =>
      intro pr hpr
      cases gt with
      | nil => simp at hpr
      | cons g gt2 =>
        simp only [List.map_cons, List.zip_cons_cons, List.mem_cons] at hpr
        rcases hpr with rfl | hpr
        · have := h (p, g) (by simp [List.zip_cons_cons])
          simpa using this
        · exact ih gt2 (fun q hq => h q (by
            simp only [List.zip_cons_cons, List.mem_cons]
            right
            exact hq)) pr hpr

theorem compute_iou_ne_nil_aux (lbl t : ℚ) :
    ∀ (gt pred : List (List ℚ)),
      pred.length = gt.length →
      (∀ pr ∈ List.zip pred gt, pr.1.length = pr.2.length) →
      area_guard gt = false →
      compute_iou (pred.map (pred_mask_at t)) (gt_mask_of gt)
        (ignore_mask_of lbl gt) false ≠ [] := by
  intro gt
  induction gt with
  | nil => intro pred _ _ hguard; simp [area_guard, gt_mask_of] at hguard
  | cons g gs ih =>
    intro pred hlen hrow hguard
    cases pred with
    | nil => simp at hlen
    | cons p ps =>
      simp only [List.map_cons, gt_mask_of, ignore_mask_of] at *
      rw [compute_iou_false_cons]
      rw [area_guard_cons] at hguard
      rcases Bool.and_eq_false_iff.1 hguard with hhead | htail
      · have hc : g.countP (fun x => decide (0 < x)) ≠ 0 := by
          simpa using hhead
        have hpg : p.length = g.length :=
          hrow (p, g) (by simp [List.zip_cons_cons])
        have hpos : 0 < sample_union (pred_mask_at t p)
            (g.map (fun x => decide (0 < x)))
            (g.map (fun x => decide (x = lbl))) := by
          apply sample_union_pos
          · simp [pred_mask_at, hpg]
          · simp
          · simpa [List.countP_map, Function.comp] using hc
        rw [if_pos hpos]
        simp
      · have htail' := ih ps (by simpa using hlen)
          (fun q hq => hrow q (by
            simp only [List.zip_cons_cons, List.mem_cons]
            right
            exact hq)) htail
        intro hcontra
        rw [List.append_eq_nil] at hcontra
        exact htail' (by simpa [gt_mask_of, ignore_mask_of] using hcontra.2)

/-- Claim C10: whenever `update` passes the no-positive-pixels guard, the
array produced by `compute_iou` is non-empty at EVERY candidate threshold
`t` (a sample with a positive ground-truth pixel has positive union no
matter what the prediction mask is), so each of the three candidate means
in `update` is a mean of a non-empty array. -/
theorem compute_iou_nonempty_in_update (σ : ℚ → ℚ) (fl : Bool)
    (lbl t : ℚ) (pred gt : List (List ℚ))
    (hlen : pred.length = gt.length)
    (hrow : ∀ pr ∈ List.zip pred gt, pr.1.length = pr.2.length)
    (hguard : area_guard gt = false) :
    compute_iou ((pred_tx σ fl pred).map (pred_mask_at t)) (gt_mask_of gt)
      (ignore_mask_of lbl gt) false ≠ [] :=
  compute_iou_ne_nil_aux lbl t gt (pred_tx σ fl pred)
    ((pred_tx_length σ fl pred).trans hlen)
    (pred_tx_rowlens σ fl pred gt hrow) hguard

/-- Witness for C10 on a concrete one-positive-pixel batch. -/
theorem compute_iou_nonempty_in_update_witness :
    compute_iou ((pred_tx (fun x => x) false [[1/2]]).map
        (pred_mask_at (2/5))) (gt_mask_of [[1]])
      (ignore_mask_of (-1) [[1]]) false ≠ [] :=
  compute_iou_nonempty_in_update (fun x => x) false (-1) (2/5) [[1/2]] [[1]]
    (by simp) (by simp [List.zip_cons_cons]) (by decide)

/-! ### Claim C9 -/

/-- Counterexample to C9: with the default step (0.025) and EMA rate (0.99)
and an initial threshold 1/10000 ∈ (0,1), one update on a batch whose only
prediction (a probability, 1/20000 ∈ (0,1)) lies below the threshold makes
the downward candidate win (overlap 1 against 0), and the blended new
threshold is -3/20000 < 0: the threshold leaves the interval (0,1). -/
theorem thresh_unit_interval_cex :
    0 < (AdaptiveIoU.mk (-1) false (1/10000) (1/40) (99/100) (9/10)
      0 0 0).iou_thresh ∧
    (AdaptiveIoU.mk (-1) false (1/10000) (1/40) (99/100) (9/10)
      0 0 0).iou_thresh < 1 ∧
    (AdaptiveIoU.update (fun x => x)
      (AdaptiveIoU.mk (-1) false (1/10000) (1/40) (99/100) (9/10) 0 0 0)
      [[1/20000]] [[1]]).iou_thresh = -3/20000 ∧
    ¬(0 < (-3 : ℚ)/20000) := by
  norm_num [AdaptiveIoU.update, search_objective, area_guard, gt_mask_of,
    ignore_mask_of, pred_tx, batch_iou, thresh_search, compute_iou, zip3,
    sample_union, sample_inter, masked_pred, qmean, bool_to_rat,
    pred_mask_at]

theorem zip3_mem_left {α β γ : Type} {pr : α × β × γ} :
    ∀ {l₁ : List α} {l₂ : List β} {l₃ : List γ},
      pr ∈ zip3 l₁ l₂ l₃ → pr.1 ∈ l₁ := by
  intro l₁
  induction l₁ with
  | nil => intro l₂ l₃ h; cases l₂ <;> cases l₃ <;> simp [zip3] at h
  | cons a t ih =>
    intro l₂ l₃ h
    cases l₂ with
    | nil => simp [zip3] at h
    | cons b bt =>
      cases l₃ with
      | nil => simp [zip3] at h
      | cons c ct =>
        simp only [zip3, List.mem_cons] at h
        rcases h with rfl | h
        · simp
        · exact List.mem_cons_of_mem _ (ih h)

theorem sample_inter_eq_zero {pm : List Bool} (gm ig : List Bool)
    (h : ∀ b ∈ pm, b = false) : sample_inter pm gm ig = 0 := by
  apply qmean_eq_zero
  intro x hx
  obtain ⟨y, hy, rfl⟩ := List.mem_map.1 hx
  obtain ⟨a, ha, g, _, rfl⟩ := mem_zipWith_ex hy
  obtain ⟨p, hp, i, _, rfl⟩ := mem_zipWith_ex ha
  rw [h p hp]
  simp [bool_to_rat]

theorem batch_iou_nonneg (pred : List (List ℚ)) (gm ig : List (List Bool))
    (t : ℚ) : 0 ≤ batch_iou pred gm ig t := by
  apply qmean_nonneg
  intro v hv
  exact (compute_iou_bounds hv).1

theorem batch_iou_zero_of_hi (pred : List (List ℚ))
    (gm ig : List (List Bool)) (T : ℚ)
    (h : ∀ row ∈ pred, ∀ x ∈ row, x < 1) (hT : 1 ≤ T) :
    batch_iou pred gm ig T = 0 := by
  unfold batch_iou
  apply qmean_eq_zero
  intro v hv
  obtain ⟨s, hs, hpos, rfl⟩ := compute_iou_mem hv
  have hleft : s.1 ∈ pred.map (pred_mask_at T) := zip3_mem_left hs
  obtain ⟨row, hrow, hmask⟩ := List.mem_map.1 hleft
  have hfalse : ∀ b ∈ s.1, b = false := by
    intro b hb
    rw [← hmask] at hb
    obtain ⟨x, hx, rfl⟩ := List.mem_map.1 hb
    simp only [decide_eq_false_iff_not, not_lt]
    exact le_trans (le_of_lt (h row hrow x hx)) hT
  rw [sample_inter_eq_zero s.2.1 s.2.2 hfalse, zero_div]

/-- Amended C9: the threshold invariant (0,1) does NOT hold — a single
update can drive the threshold negative (see the counterexample) — but its
upper half does: when the (transformed) predictions are probabilities
strictly below 1, `thresh_step ≥ 0` and `thresh_beta ∈ [0,1]`, a threshold
strictly below 1 stays strictly below 1 after every update (the upward
candidate empties the prediction mask once it reaches 1, scoring 0, and so
never strictly beats the current candidate). -/
theorem thresh_lt_one_invariant (σ : ℚ → ℚ) (m : AdaptiveIoU)
    (pred gt : List (List ℚ))
    (hβ0 : 0 ≤ m.thresh_beta) (hβ1 : m.thresh_beta ≤ 1)
    (hst : 0 ≤ m.thresh_step)
    (hpred : ∀ row ∈ pred_tx σ m.from_logits pred, ∀ x ∈ row, x < 1)
    (ht : m.iou_thresh < 1) :
    (AdaptiveIoU.update σ m pred gt).iou_thresh < 1 := by
  by_cases hg : area_guard gt = true
  · rw [adaptive_update_of_guard σ m pred gt hg]
    exact ht
  · rw [adaptive_update_iou_thresh σ m pred gt (by simpa using hg)]
    have hb1 : (thresh_search (search_objective σ m pred gt) m.iou_thresh
        m.thresh_step).2 < 1 := by
      by_cases hcase : m.iou_thresh + m.thresh_step < 1
      · rcases (thresh_search_snd_cases (search_objective σ m pred gt)
          m.iou_thresh m.thresh_step).1 with h | h | h <;> rw [h] <;> linarith
      · have h0 : search_objective σ m pred gt
            (m.iou_thresh + m.thresh_step) = 0 := by
          unfold search_objective
          exact batch_iou_zero_of_hi _ _ _ _ hpred (by linarith)
        have hup : search_objective σ m pred gt
            (m.iou_thresh + m.thresh_step) ≤
            search_objective σ m pred gt m.iou_thresh := by
          rw [h0]
          unfold search_objective
          exact batch_iou_nonneg _ _ _ _
        rcases thresh_search_snd_of_up_le (search_objective σ m pred gt)
          m.iou_thresh m.thresh_step hup with h | h <;> rw [h] <;> linarith
    rcases lt_or_eq_of_le hβ1 with hlt | heq
    · nlinarith [mul_nonneg hβ0 (by linarith : (0:ℚ) ≤ 1 - m.iou_thresh),
        mul_pos (by linarith : (0:ℚ) < 1 - m.thresh_beta)
          (by linarith : (0:ℚ) < 1 -
            (thresh_search (search_objective σ m pred gt) m.iou_thresh
              m.thresh_step).2)]
    · rw [heq]
      ring_nf
      linarith

/-- Witness for the amended C9 at a concrete probability batch. -/
theorem thresh_lt_one_invariant_witness :
    (AdaptiveIoU.update (fun x => x) m0A [[1/2]] [[1]]).iou_thresh < 1 :=
  thresh_lt_one_invariant (fun x => x) m0A [[1/2]] [[1]]
    (by norm_num [m0A]) (by norm_num [m0A]) (by norm_num [m0A])
    (by norm_num [pred_tx, m0A]) (by norm_num [m0A])
